import Mathlib

/-!
Verification of the HTML5 parser core (tokenizer, tree builder, semantic
auditor, differential oracle, integrity verifier) of the
Agentic-HTML5-Parser repository, shallowly embedded from
`src/parser.py`, `src/verifiers.py` and `src/robustness.py`.
-/

set_option maxRecDepth 8000

namespace HtmlCore

/-! ## Token data model (`parser.py`, class `TokenType` / `Token`) -/

/-- The seven HTML5 token types declared by the `TokenType` enum. -/
inductive TokenType where
  | DOCTYPE
  | START_TAG
  | END_TAG
  | COMMENT
  | CHARACTER
  | EOF
  | PARSE_ERROR
deriving DecidableEq, Repr

/-- A token, mirroring the `Token` dataclass.  Python's attribute dict is
an insertion-ordered map; it is embedded as an association list updated
in place by `dictInsert`. -/
structure Token where
  type : TokenType
  name : Option String := none
  attributes : List (String × String) := []
  selfClosing : Bool := false
  data : Option String := none
  forceQuirks : Bool := false
deriving DecidableEq, Repr

/-- Insert (or overwrite, in place, keeping insertion order) a key in an
association list, matching Python's `dict[k] = v`. -/
def dictInsert : List (String × String) → String → String → List (String × String)
  | [], k, v => [(k, v)]
  | (k₁, v₁) :: rest, k, v =>
      if k₁ == k then (k, v) :: rest else (k₁, v₁) :: dictInsert rest k v

/-! ## Tokenizer (`parser.py`, class `HTMLTokenizer`) -/

/-- The tokenizer states declared on `HTMLTokenizer`.  `AFTER_ATTR_NAME`
and `BOGUS_COMMENT` are declared in the source but never entered; they are
kept so the state space matches the source. -/
inductive TState where
  | DATA
  | TAG_OPEN
  | END_TAG_OPEN
  | TAG_NAME
  | BEFORE_ATTR_NAME
  | ATTR_NAME
  | AFTER_ATTR_NAME
  | BEFORE_ATTR_VALUE
  | ATTR_VALUE_DQ
  | ATTR_VALUE_SQ
  | ATTR_VALUE_UQ
  | SELF_CLOSING
  | BOGUS_COMMENT
deriving DecidableEq, Repr

/-- The fixed void-element set `HTMLTokenizer.VOID_ELEMENTS`. -/
def VOID_ELEMENTS : List String :=
  ["area", "base", "br", "col", "embed", "hr", "img", "input",
   "link", "meta", "param", "source", "track", "wbr"]

/-- Python `str.isspace()` restricted to the ASCII whitespace characters. -/
def pyIsSpace (c : Char) : Bool :=
  c == ' ' || c == '\t' || c == '\n' || c == '\r' || c == '\x0b' || c == '\x0c'

/-- Mutable tokenizer state: the fields of `HTMLTokenizer` together with
the token list being built (`tokens` in `tokenize`).  The scan position is
carried by the driver `runFuel` as the remaining character list. -/
structure TokState where
  state : TState
  currentToken : Option Token := none
  currentAttrName : String := ""
  currentAttrValue : String := ""
  reconsume : Bool := false
  tokens : List Token := []
deriving DecidableEq, Repr

/-- Initial tokenizer state (`HTMLTokenizer.__init__`). -/
def initTokState : TokState := { state := .DATA }

/-- Source `HTMLTokenizer._emit_token`: force the self-closing flag for void
element names, append the current token, clear it. -/
def emitToken (st : TokState) : TokState :=
  match st.currentToken with
  | none => st
  | some tk =>
      let tk := if (match tk.name with
                    | some n => decide (n ∈ VOID_ELEMENTS)
                    | none => false)
                then { tk with selfClosing := true } else tk
      { st with tokens := st.tokens ++ [tk], currentToken := none }

/-- Source `HTMLTokenizer._finalize_attr`: record the pending attribute (when a
token is present and the pending name is non-empty) and clear the pending
name and value. -/
def finalizeAttr (st : TokState) : TokState :=
  let st :=
    if st.currentToken.isSome && st.currentAttrName != "" then
      { st with currentToken := st.currentToken.map (fun tk =>
          { tk with attributes := dictInsert tk.attributes st.currentAttrName st.currentAttrValue }) }
    else st
  { st with currentAttrName := "", currentAttrValue := "" }

/-- Update the current token, if present (`if self.current_token: ...`). -/
def updCur (f : Token → Token) (st : TokState) : TokState :=
  { st with currentToken := st.currentToken.map f }

/-- One dispatch of the `while` loop body of `HTMLTokenizer.tokenize` on
the character `c`.  The source clears `reconsume` at the bottom of every
iteration, so the loop condition reduces to `pos < len(html)` and the
`char is None` arms of the source are unreachable; `step` therefore
receives an actual character.  A branch sets `reconsume := true` exactly
where the source does; the driver replays the same character once. -/
def step (st : TokState) (c : Char) : TokState :=
  let st := { st with reconsume := false }
  match st.state with
  | .DATA =>
      if c == '<' then { st with state := .TAG_OPEN }
      else { st with tokens := st.tokens ++ [{ type := .CHARACTER, data := some c.toString }] }
  | .TAG_OPEN =>
      if c == '/' then { st with state := .END_TAG_OPEN }
      else if c.isAlpha then
        { st with currentToken := some { type := .START_TAG, name := some c.toLower.toString },
                  state := .TAG_NAME }
      else { st with state := .DATA, reconsume := true }
  | .END_TAG_OPEN =>
      if c.isAlpha then
        { st with currentToken := some { type := .END_TAG, name := some c.toLower.toString },
                  state := .TAG_NAME }
      else { st with state := .DATA }
  | .TAG_NAME =>
      if c == '>' then { emitToken st with state := .DATA }
      else if pyIsSpace c then { st with state := .BEFORE_ATTR_NAME }
      else if c == '/' then { st with state := .SELF_CLOSING }
      else updCur (fun tk => { tk with name := tk.name.map (· ++ c.toLower.toString) }) st
  | .BEFORE_ATTR_NAME =>
      if c == '>' then { emitToken st with state := .DATA }
      else if c == '/' then { st with state := .SELF_CLOSING }
      else if !(pyIsSpace c) then
        { st with currentAttrName := c.toLower.toString, state := .ATTR_NAME }
      else st
  | .ATTR_NAME =>
      if c == '>' || c == '/' || pyIsSpace c then
        -- record a boolean attribute; lines 223-225 set the state to
        -- BEFORE_ATTR_NAME in each reachable case, with reconsume
        let st :=
          if st.currentToken.isSome && st.currentAttrName != "" then
            updCur (fun tk =>
              { tk with attributes := dictInsert tk.attributes st.currentAttrName "" }) st
          else st
        { st with state := .BEFORE_ATTR_NAME, reconsume := true }
      else if c == '=' then { st with state := .BEFORE_ATTR_VALUE }
      else { st with currentAttrName := st.currentAttrName ++ c.toLower.toString }
  | .BEFORE_ATTR_VALUE =>
      if c == '"' then { st with state := .ATTR_VALUE_DQ, currentAttrValue := "" }
      else if c == '\'' then { st with state := .ATTR_VALUE_SQ, currentAttrValue := "" }
      else if c == '>' then { emitToken st with state := .DATA }
      else if !(pyIsSpace c) then
        { st with state := .ATTR_VALUE_UQ, currentAttrValue := c.toString }
      else st
  | .ATTR_VALUE_DQ =>
      if c == '"' then { finalizeAttr st with state := .BEFORE_ATTR_NAME }
      else { st with currentAttrValue := st.currentAttrValue ++ c.toString }
  | .ATTR_VALUE_SQ =>
      if c == '\'' then { finalizeAttr st with state := .BEFORE_ATTR_NAME }
      else { st with currentAttrValue := st.currentAttrValue ++ c.toString }
  | .ATTR_VALUE_UQ =>
      if pyIsSpace c || c == '>' then
        { finalizeAttr st with state := .BEFORE_ATTR_NAME, reconsume := true }
      else { st with currentAttrValue := st.currentAttrValue ++ c.toString }
  | .SELF_CLOSING =>
      if c == '>' then
        { emitToken (updCur (fun tk => { tk with selfClosing := true }) st) with state := .DATA }
      else { st with state := .BEFORE_ATTR_NAME, reconsume := true }
  | .AFTER_ATTR_NAME => st
  | .BOGUS_COMMENT => st

/-- The scan loop of `HTMLTokenizer.tokenize`.  A step that sets
`reconsume` replays the same character (without advancing); every other
step consumes one character.  Each iteration spends one unit of fuel;
`stepFuelBound` below shows that a reconsuming step is immediately
followed by a consuming one, so `2 * length + 1` fuel always completes
the scan (see `runFuel_elim`). -/
def runFuel : Nat → List Char → TokState → TokState
  | 0, _, st => st
  | _ + 1, [], st => st
  | fuel + 1, c :: rest, st =>
      let st₁ := step st c
      if st₁.reconsume then runFuel fuel (c :: rest) { st₁ with reconsume := false }
      else runFuel fuel rest st₁

/-- The EOF token appended after the scan loop (`Token(TokenType.EOF)`). -/
def eofToken : Token := { type := .EOF }

/-- Source `HTMLTokenizer.tokenize` / module-level `tokenize`: run the state
machine over the whole input, then append the single EOF token. -/
def tokenize (html : String) : List Token :=
  (runFuel (2 * html.data.length + 1) html.data initTokState).tokens ++ [eofToken]

/-! ## Tree builder (`parser.py`, class `HTMLParser`)

The Python builder mutates `TreeNode` objects shared between the tree and
the `open_elements` stack.  The embedding uses an arena: nodes live in a
list indexed by creation order, children and parents are indices, and the
open-element stack is a list of indices held **top-first** (the reverse of
the Python list, whose last element is the stack top). -/

/-- Arena form of the `TreeNode` dataclass. -/
structure Node where
  name : String
  attributes : List (String × String) := []
  children : List Nat := []
  text : String := ""
  parent : Option Nat := none
deriving DecidableEq, Repr

/-- Builder state: the node arena plus `HTMLParser.open_elements`
(top-first). -/
structure PState where
  nodes : List Node
  openElements : List Nat
deriving DecidableEq, Repr

/-- The fixed block-element set `HTMLParser.SPECIAL_END_TAGS`. -/
def SPECIAL_END_TAGS : List String :=
  ["div", "blockquote", "section", "article", "nav", "aside",
   "header", "footer", "h1", "h2", "h3", "h4", "h5", "h6"]

/-- Name of the arena node at index `i` (indices on the stack are always
in bounds). -/
def nodeNameOf (nodes : List Node) (i : Nat) : String :=
  match nodes[i]? with
  | some n => n.name
  | none => ""

/-- Update the arena node at index `i`, if in bounds. -/
def updNode (nodes : List Node) (i : Nat) (f : Node → Node) : List Node :=
  match nodes[i]? with
  | some n => nodes.set i (f n)
  | none => nodes

/-- Source `TreeNode.add_child`: set the child's parent back-reference and append
the child to the parent's ordered child list. -/
def addChild (nodes : List Node) (parentIdx childIdx : Nat) : List Node :=
  let nodes := updNode nodes childIdx (fun ch => { ch with parent := some parentIdx })
  updNode nodes parentIdx (fun p => { p with children := p.children ++ [childIdx] })

/-- Source `HTMLParser._is_open`: is some element with this name on the stack? -/
def isOpen (st : PState) (tagName : String) : Bool :=
  st.openElements.any (fun i => nodeNameOf st.nodes i == tagName)

/-- The scan of `HTMLParser._close_element`: remove the first stack entry
(from the top) whose node name matches; leave the stack unchanged when no
entry matches. -/
def closeInStack (nodes : List Node) (tagName : String) : List Nat → List Nat
  | [] => []
  | i :: rest =>
      if nodeNameOf nodes i == tagName then rest
      else i :: closeInStack nodes tagName rest

/-- Source `HTMLParser._close_element` on a (truthy) tag name. -/
def closeElement (st : PState) (tagName : String) : PState :=
  { st with openElements := closeInStack st.nodes tagName st.openElements }

/-- The attach-and-push part of `HTMLParser._process_start_tag`: create the
new node (`TreeNode(tag_name or "", attributes)`), add it as last child of
the stack top when the stack is non-empty, and push it unless the token is
self-closing. -/
def attachNewNode (tok : Token) (st : PState) : PState :=
  let newIdx := st.nodes.length
  let newNode : Node := { name := tok.name.getD "", attributes := tok.attributes }
  let st := { st with nodes := st.nodes ++ [newNode] }
  let st :=
    match st.openElements with
    | top :: _ => { st with nodes := addChild st.nodes top newIdx }
    | [] => st
  if tok.selfClosing then st
  else { st with openElements := newIdx :: st.openElements }

/-- Source `HTMLParser._process_start_tag`: implicitly close an open `p` before a
block tag, then attach and push the new node. -/
def processStartTag (tok : Token) (st : PState) : PState :=
  let st :=
    if (match tok.name with
        | some n => decide (n ∈ SPECIAL_END_TAGS)
        | none => false) && isOpen st "p"
    then closeElement st "p" else st
  attachNewNode tok st

/-- Source `HTMLParser._process_end_tag`: close by name when the token name is
truthy (present and non-empty). -/
def processEndTag (tok : Token) (st : PState) : PState :=
  match tok.name with
  | some n => if n != "" then closeElement st n else st
  | none => st

/-- Source `HTMLParser._process_character`: append the (truthy) character data to
the text accumulator of the stack top, when the stack is non-empty. -/
def processCharacter (tok : Token) (st : PState) : PState :=
  match st.openElements, tok.data with
  | top :: _, some d =>
      if d != "" then { st with nodes := updNode st.nodes top (fun n => { n with text := n.text ++ d }) }
      else st
  | _, _ => st

/-- Dispatch of one token in the loop of `HTMLParser.parse` (EOF is
handled by the loop itself). -/
def processToken (st : PState) (tok : Token) : PState :=
  match tok.type with
  | .START_TAG => processStartTag tok st
  | .END_TAG => processEndTag tok st
  | .CHARACTER => processCharacter tok st
  | _ => st

/-- The token loop of `HTMLParser.parse`: process tokens in order, stopping
at the first EOF token. -/
def processTokens : List Token → PState → PState
  | [], st => st
  | tok :: rest, st =>
      if tok.type == TokenType.EOF then st
      else processTokens rest (processToken st tok)

/-- Initial builder state: the synthetic root `TreeNode("html")` seeding
both the arena and the open-element stack. -/
def initPState : PState :=
  { nodes := [{ name := "html" }], openElements := [0] }

/-- Source `HTMLParser.parse` / module-level `parse`: tokenize, then build.  The
root is arena index `0`. -/
def parse (html : String) : PState :=
  processTokens (tokenize html) initPState

/-! ## Trees as values

The Python `parse` returns the root `TreeNode` object.  `Tree` is the
value form of a node (as in `TreeNode.serialize`), and `toTree` reads it
out of the arena; children always carry larger indices than their parent,
so `nodes.length` bounds the recursion depth. -/

/-- A node value: name, attributes, ordered children, accumulated text. -/
inductive Tree where
  | node (name : String) (attributes : List (String × String))
      (children : List Tree) (text : String)
deriving Repr

/-- The name of a tree's root node. -/
def Tree.name : Tree → String
  | .node n _ _ _ => n

/-- The attribute list of a tree's root node. -/
def Tree.attributes : Tree → List (String × String)
  | .node _ a _ _ => a

/-- The child list of a tree's root node. -/
def Tree.children : Tree → List Tree
  | .node _ _ c _ => c

/-- The accumulated text of a tree's root node. -/
def Tree.text : Tree → String
  | .node _ _ _ t => t

/-- Read the tree rooted at arena index `i`, with explicit fuel. -/
def toTreeFuel (nodes : List Node) : Nat → Nat → Tree
  | 0, _ => .node "" [] [] ""
  | fuel + 1, i =>
      match nodes[i]? with
      | none => .node "" [] [] ""
      | some n => .node n.name n.attributes (n.children.map (toTreeFuel nodes fuel)) n.text

/-- Read the tree rooted at arena index `i`. -/
def toTree (nodes : List Node) (i : Nat) : Tree :=
  toTreeFuel nodes nodes.length i

/-- The tree returned by `parse`: the root node, read as a value. -/
def parseTree (html : String) : Tree :=
  toTree (parse html).nodes 0

/-! ## Semantic compliance auditor (`verifiers.py`,
class `SemanticComplianceAuditor`) -/

/-- The fixed nesting table `INVALID_NESTING`: parent tag name to the tag
names forbidden as direct children. -/
def INVALID_NESTING (name : String) : List String :=
  if name == "p" then ["div", "p", "blockquote", "header", "footer", "section", "article"]
  else if name == "ul" then ["p", "div"]
  else if name == "li" then ["header", "footer"]
  else []

mutual

/-- Source `SemanticComplianceAuditor._check_node`: one message per direct
parent/child pair whose child name the table forbids (in child order),
followed by the violations of each child subtree in order. -/
def checkNode : Tree → List String
  | .node name _ children _ =>
      ((children.map Tree.name).filter (fun cn => decide (cn ∈ INVALID_NESTING name))).map
        (fun cn => "Invalid nesting: <" ++ cn ++ "> inside <" ++ name ++ ">")
      ++ checkNodeList children

/-- The `for child in node.children: self._check_node(child)` loop. -/
def checkNodeList : List Tree → List String
  | [] => []
  | t :: ts => checkNode t ++ checkNodeList ts

end

/-- The audit result record. -/
structure AuditReport where
  score : Int
  violations : List String
  status : String
deriving DecidableEq, Repr

/-- Source `SemanticComplianceAuditor.audit`. -/
def audit (root : Tree) : AuditReport :=
  let violations := checkNode root
  let score : Int := max 0 (100 - (violations.length * 10 : Int))
  { score := score
    violations := violations
    status := if score == 100 then "PASS" else "FAIL" }

/-! ## Integrity verifier (`robustness.py`, class `IntegrityWrapper`) -/

mutual

/-- Source `IntegrityWrapper._count_nodes`. -/
def countNodes : Tree → Nat
  | .node _ _ children _ => 1 + countNodesList children

/-- The summation over the children of `_count_nodes`. -/
def countNodesList : List Tree → Nat
  | [] => 0
  | t :: ts => countNodes t + countNodesList ts

end

mutual

/-- Source `IntegrityWrapper._get_depth`. -/
def getDepth : Tree → Nat
  | .node _ _ children _ =>
      if children.isEmpty then 1 else 1 + getDepthList children

/-- The `max(...)` over the children of `_get_depth`. -/
def getDepthList : List Tree → Nat
  | [] => 0
  | t :: ts => max (getDepth t) (getDepthList ts)

end

/-- The integrity result record. -/
structure IntegrityReport where
  valid : Bool
  node_count : Nat
  max_depth : Nat
  issues : List String
deriving DecidableEq, Repr

/-- Source `IntegrityWrapper.verify`, with the caller-supplied configuration
(`max_depth`, `max_nodes`) from `IntegrityWrapper.__init__`. -/
def verify (maxDepth maxNodes : Nat) (root : Tree) : IntegrityReport :=
  let nodeCount := countNodes root
  let depth := getDepth root
  let issues :=
    (if nodeCount > maxNodes then
      ["Node count (" ++ toString nodeCount ++ ") exceeds limit (" ++ toString maxNodes ++ ")"]
     else []) ++
    (if depth > maxDepth then
      ["DOM depth (" ++ toString depth ++ ") exceeds limit (" ++ toString maxDepth ++ ")"]
     else [])
  { valid := issues.length == 0
    node_count := nodeCount
    max_depth := depth
    issues := issues }

/-! ## Differential oracle (`verifiers.py`, class `DifferentialOracle`)

The reference side (`_get_structure_bs4`) extracts the same kind of
pre-order name sequence from a BeautifulSoup parse; BeautifulSoup is an
external collaborator, so `compare` is embedded over the already-extracted
reference sequence. -/

mutual

/-- Source `DifferentialOracle._get_structure_our`: pre-order tag names, skipping
every node named `html` or `body`. -/
def getStructureOur : Tree → List String
  | .node name _ children _ =>
      (if name == "html" || name == "body" then [] else [name])
      ++ getStructureOurList children

/-- The extension over the children of `_get_structure_our`. -/
def getStructureOurList : List Tree → List String
  | [] => []
  | t :: ts => getStructureOur t ++ getStructureOurList ts

end

/-- The comparison result record (dict keys `matches`, `ref_tags`,
`our_tags`, `details`). -/
structure CompareReport where
  «matches» : Bool
  ref_tags : Nat
  our_tags : Nat
  details : String
deriving DecidableEq, Repr

/-- Source `DifferentialOracle.compare`, over the extracted reference structure. -/
def compare (refStructure : List String) (tree : Tree) : CompareReport :=
  let ourStructure := getStructureOur tree
  let m := refStructure == ourStructure
  { «matches» := m
    ref_tags := refStructure.length
    our_tags := ourStructure.length
    details := if m then "Structure matches reference" else "Structural discrepancy detected" }

/-! ## Derived predicates and example values used by the theorems -/

/-- The four token types a tokenization can actually contain. -/
def allowedType (t : Token) : Bool :=
  t.type == .START_TAG || t.type == .END_TAG || t.type == .CHARACTER || t.type == .EOF

/-- Does the token name a void element? -/
def voidName (t : Token) : Bool :=
  match t.name with
  | some n => decide (n ∈ VOID_ELEMENTS)
  | none => false

/-- A start tag naming a void element carries the self-closing flag. -/
def voidSelfClosed (t : Token) : Bool :=
  !(t.type == TokenType.START_TAG && voidName t) || t.selfClosing

/-- Invariant on emitted tokens: the type is one a scan step can append,
and any token naming a void element is flagged self-closing. -/
def goodTok (t : Token) : Prop :=
  (t.type = .START_TAG ∨ t.type = .END_TAG ∨ t.type = .CHARACTER) ∧
  (∀ n, t.name = some n → n ∈ VOID_ELEMENTS → t.selfClosing = true)

/-- Invariant on the token under construction: it is a start or end tag. -/
def goodCur (t : Token) : Prop :=
  t.type = .START_TAG ∨ t.type = .END_TAG

/-- Invariant carried through the whole scan. -/
def GoodState (st : TokState) : Prop :=
  (∀ t ∈ st.tokens, goodTok t) ∧ (∀ t, st.currentToken = some t → goodCur t)

mutual

/-- Independent count, in the words of the specification, of the direct
parent/child pairs forbidden by the nesting table. -/
def specPairCount : Tree → Nat
  | .node name _ children _ =>
      (children.filter (fun c => decide (c.name ∈ INVALID_NESTING name))).length
      + specPairCountList children

/-- The sum of `specPairCount` over a forest. -/
def specPairCountList : List Tree → Nat
  | [] => 0
  | t :: ts => specPairCount t + specPairCountList ts

end

mutual

/-- Erase every attribute mapping and every text accumulator of a tree,
keeping only the name structure. -/
def stripMeta : Tree → Tree
  | .node name _ children _ => .node name [] (stripMetaList children) ""

/-- Map `stripMeta` over a forest. -/
def stripMetaList : List Tree → List Tree
  | [] => []
  | t :: ts => stripMeta t :: stripMetaList ts

end

/-- Hand-built tree with exactly one `div` directly under a `p`. -/
def pDivTree : Tree := .node "p" [] [.node "div" [] [] ""] ""

/-- Hand-built tree of three nested `div` elements. -/
def threeDivTree : Tree := .node "div" [] [.node "div" [] [.node "div" [] [] ""] ""] ""

/-- An end-tag token naming `q`, used as a concrete no-match input. -/
def strayEndTag : Token := { type := .END_TAG, name := some "q" }

/-- A concrete start-tag token naming `div`. -/
def divStartTag : Token := { type := .START_TAG, name := some "div" }

/-- A concrete self-closing start-tag token naming `br`. -/
def brStartTag : Token := { type := .START_TAG, name := some "br", selfClosing := true }

/-- A concrete builder state with an open `p` above the root: the arena
holds the root and a `p` node, both on the stack. -/
def pOpenState : PState :=
  { nodes := [{ name := "html", children := [1] }, { name := "p", parent := some 0 }]
    openElements := [1, 0] }

/-! ## Tokenizer lemmas -/

@[simp] theorem emitToken_state (st : TokState) : (emitToken st).state = st.state := by
  cases h : st.currentToken <;> simp [emitToken, h]

@[simp] theorem emitToken_reconsume (st : TokState) : (emitToken st).reconsume = st.reconsume := by
  cases h : st.currentToken <;> simp [emitToken, h]

@[simp] theorem finalizeAttr_state (st : TokState) : (finalizeAttr st).state = st.state := by
  unfold finalizeAttr
  split <;> rfl

@[simp] theorem finalizeAttr_reconsume (st : TokState) :
    (finalizeAttr st).reconsume = st.reconsume := by
  unfold finalizeAttr
  split <;> rfl

@[simp] theorem finalizeAttr_tokens (st : TokState) : (finalizeAttr st).tokens = st.tokens := by
  unfold finalizeAttr
  split <;> rfl

@[simp] theorem updCur_state (f : Token → Token) (st : TokState) :
    (updCur f st).state = st.state := rfl

@[simp] theorem updCur_reconsume (f : Token → Token) (st : TokState) :
    (updCur f st).reconsume = st.reconsume := rfl

@[simp] theorem updCur_tokens (f : Token → Token) (st : TokState) :
    (updCur f st).tokens = st.tokens := rfl

/-- The invariant `GoodState` depends only on the token list and the current token. -/
theorem goodState_congr {st st' : TokState} (h : GoodState st)
    (ht : st'.tokens = st.tokens) (hc : st'.currentToken = st.currentToken) :
    GoodState st' := by
  refine ⟨?_, ?_⟩
  · rw [ht]; exact h.1
  · rw [hc]; exact h.2

/-- The void-element adjustment of `_emit_token` turns a well-formed
current token into a well-formed emitted token. -/
theorem goodTok_adjust {tk : Token} (htk : goodCur tk) :
    goodTok (if (match tk.name with
                 | some n => decide (n ∈ VOID_ELEMENTS)
                 | none => false)
             then { tk with selfClosing := true } else tk) := by
  constructor
  · split <;> rcases htk with h | h <;> simp [h]
  · split
    · intro n hn hv; rfl
    · next hcond =>
      intro n hn hv
      exact absurd (by simp [hn, hv]) hcond

theorem goodState_emitToken {st : TokState} (h : GoodState st) : GoodState (emitToken st) := by
  obtain ⟨h1, h2⟩ := h
  cases hc : st.currentToken with
  | none => exact goodState_congr ⟨h1, h2⟩ (by simp [emitToken, hc]) (by simp [emitToken, hc])
  | some tk =>
    have htk : goodCur tk := h2 tk hc
    refine ⟨?_, ?_⟩
    · intro t ht
      simp only [emitToken, hc, List.mem_append, List.mem_singleton] at ht
      rcases ht with ht | ht
      · exact h1 t ht
      · subst ht
        exact goodTok_adjust htk
    · intro t ht
      simp [emitToken, hc] at ht

theorem goodState_finalizeAttr {st : TokState} (h : GoodState st) :
    GoodState (finalizeAttr st) := by
  obtain ⟨h1, h2⟩ := h
  refine ⟨by simpa using h1, ?_⟩
  intro t ht
  unfold finalizeAttr at ht
  split at ht
  · simp only [Option.map_eq_some'] at ht
    obtain ⟨tk, htk, rfl⟩ := ht
    exact h2 tk htk
  · exact h2 t ht

theorem goodState_updCur {st : TokState} {f : Token → Token}
    (hf : ∀ tk, (f tk).type = tk.type) (h : GoodState st) : GoodState (updCur f st) := by
  obtain ⟨h1, h2⟩ := h
  refine ⟨h1, ?_⟩
  intro t ht
  simp only [updCur, Option.map_eq_some'] at ht
  obtain ⟨tk, htk, rfl⟩ := ht
  have := h2 tk htk
  unfold goodCur at this ⊢
  rw [hf]
  exact this

theorem goodState_append {st : TokState} (h : GoodState st) {t : Token} (ht : goodTok t) :
    GoodState { st with tokens := st.tokens ++ [t] } := by
  refine ⟨?_, h.2⟩
  intro u hu
  rcases List.mem_append.mp hu with hu | hu
  · exact h.1 u hu
  · rw [List.mem_singleton.mp hu]; exact ht

theorem goodState_setCur {st : TokState} (h : GoodState st) {tk : Token} (htk : goodCur tk) :
    GoodState { st with currentToken := some tk } := by
  refine ⟨h.1, ?_⟩
  intro t ht
  cases Option.some.inj ht
  exact htk

/-- Every dispatch of the scan loop preserves the token invariant. -/
theorem goodState_step (st : TokState) (c : Char) (h : GoodState st) :
    GoodState (step st c) := by
  obtain ⟨state, cur, an, av, rec, toks⟩ := st
  have h0 : GoodState (⟨state, cur, an, av, false, toks⟩ : TokState) := ⟨h.1, h.2⟩
  cases state <;> simp only [step]
  case DATA =>
    split
    · exact goodState_congr h0 rfl rfl
    · refine goodState_congr (goodState_append h0 ?_) rfl rfl
      exact ⟨Or.inr (Or.inr rfl), fun n hn => by simp at hn⟩
  case TAG_OPEN =>
    split
    · exact goodState_congr h0 rfl rfl
    · split
      · exact goodState_congr (goodState_setCur h0 (Or.inl rfl)) rfl rfl
      · exact goodState_congr h0 rfl rfl
  case END_TAG_OPEN =>
    split
    · exact goodState_congr (goodState_setCur h0 (Or.inr rfl)) rfl rfl
    · exact goodState_congr h0 rfl rfl
  case TAG_NAME =>
    split
    · exact goodState_congr (goodState_emitToken h0) rfl rfl
    · split
      · exact goodState_congr h0 rfl rfl
      · split
        · exact goodState_congr h0 rfl rfl
        · exact goodState_congr (@goodState_updCur
            ⟨TState.TAG_NAME, cur, an, av, false, toks⟩
            (fun tk => { tk with name := tk.name.map (· ++ c.toLower.toString) })
            (fun tk => rfl) h0) rfl rfl
  case BEFORE_ATTR_NAME =>
    split
    · exact goodState_congr (goodState_emitToken h0) rfl rfl
    · split
      · exact goodState_congr h0 rfl rfl
      · split
        · exact goodState_congr h0 rfl rfl
        · exact goodState_congr h0 rfl rfl
  case ATTR_NAME =>
    split
    · split
      · exact goodState_congr (@goodState_updCur
          ⟨TState.ATTR_NAME, cur, an, av, false, toks⟩
          (fun tk => { tk with attributes := dictInsert tk.attributes an "" })
          (fun tk => rfl) h0) rfl rfl
      · exact goodState_congr h0 rfl rfl
    · split
      · exact goodState_congr h0 rfl rfl
      · exact goodState_congr h0 rfl rfl
  case BEFORE_ATTR_VALUE =>
    split
    · exact goodState_congr h0 rfl rfl
    · split
      · exact goodState_congr h0 rfl rfl
      · split
        · exact goodState_congr (goodState_emitToken h0) rfl rfl
        · split
          · exact goodState_congr h0 rfl rfl
          · exact goodState_congr h0 rfl rfl
  case ATTR_VALUE_DQ =>
    split
    · exact goodState_congr (goodState_finalizeAttr h0) rfl rfl
    · exact goodState_congr h0 rfl rfl
  case ATTR_VALUE_SQ =>
    split
    · exact goodState_congr (goodState_finalizeAttr h0) rfl rfl
    · exact goodState_congr h0 rfl rfl
  case ATTR_VALUE_UQ =>
    split
    · exact goodState_congr (goodState_finalizeAttr h0) rfl rfl
    · exact goodState_congr h0 rfl rfl
  case SELF_CLOSING =>
    split
    · exact goodState_congr (goodState_emitToken (@goodState_updCur
        ⟨TState.SELF_CLOSING, cur, an, av, false, toks⟩
        (fun tk => { tk with selfClosing := true }) (fun tk => rfl) h0)) rfl rfl
    · exact goodState_congr h0 rfl rfl
  case AFTER_ATTR_NAME => exact goodState_congr h0 rfl rfl
  case BOGUS_COMMENT => exact goodState_congr h0 rfl rfl

/-- A dispatch that asks for a replay leaves the machine in `DATA` or
`BEFORE_ATTR_NAME`. -/
theorem step_reconsume_state (st : TokState) (c : Char) :
    (step st c).reconsume = true →
    (step st c).state = TState.DATA ∨ (step st c).state = TState.BEFORE_ATTR_NAME := by
  obtain ⟨state, cur, an, av, rec, toks⟩ := st
  intro h
  cases state <;> simp only [step] at h ⊢ <;> (repeat' split at h) <;> simp_all

/-- A dispatch from `DATA` or `BEFORE_ATTR_NAME` never asks for a replay,
so the source loop replays each character at most once. -/
theorem step_data_before_noReconsume (st : TokState) (c : Char)
    (h : st.state = TState.DATA ∨ st.state = TState.BEFORE_ATTR_NAME) :
    (step st c).reconsume = false := by
  obtain ⟨state, cur, an, av, rec, toks⟩ := st
  simp only at h
  rcases h with h | h <;> subst h <;> simp only [step] <;> (repeat' split) <;> simp

/-- With at least `2 * length` fuel the scan result no longer depends on
the fuel: `2 * length + 1` is always enough for the driver to replay the
whole source loop. -/
theorem runFuel_fuel_irrel : ∀ (cs : List Char) (fuel fuel' : Nat) (st : TokState),
    2 * cs.length ≤ fuel → 2 * cs.length ≤ fuel' →
    runFuel fuel cs st = runFuel fuel' cs st := by
  intro cs
  induction cs with
  | nil =>
    intro fuel fuel' st _ _
    cases fuel <;> cases fuel' <;> rfl
  | cons c rest ih =>
    intro fuel fuel' st hf hf'
    simp only [List.length_cons] at hf hf'
    cases fuel with
    | zero => omega
    | succ f =>
      cases fuel' with
      | zero => omega
      | succ f' =>
        simp only [runFuel]
        split
        · next hrec =>
          cases f with
          | zero => omega
          | succ g =>
            cases f' with
            | zero => omega
            | succ g' =>
              have hst : (step { step st c with reconsume := false } c).reconsume = false :=
                step_data_before_noReconsume _ _ (step_reconsume_state st c hrec)
              simp only [runFuel, hst]
              simp only [Bool.false_eq_true, if_false]
              exact ih g g' _ (by omega) (by omega)
        · exact ih f f' _ (by omega) (by omega)

/-- The token invariant holds through the whole scan. -/
theorem goodState_runFuel (fuel : Nat) :
    ∀ (cs : List Char) (st : TokState), GoodState st → GoodState (runFuel fuel cs st) := by
  induction fuel with
  | zero => intro cs st h; exact h
  | succ n ih =>
    intro cs st h
    cases cs with
    | nil => exact h
    | cons c rest =>
      simp only [runFuel]
      split
      · exact ih _ _ (goodState_congr (goodState_step _ _ h) rfl rfl)
      · exact ih _ _ (goodState_step _ _ h)

theorem goodState_init : GoodState initTokState := by
  constructor
  · intro t ht; simp [initTokState] at ht
  · intro t ht; simp [initTokState] at ht

/-- Every token of a tokenization is either a scanned token satisfying the
invariant, or the final EOF token. -/
theorem mem_tokenize_cases (html : String) (t : Token) (ht : t ∈ tokenize html) :
    goodTok t ∨ t = eofToken := by
  unfold tokenize at ht
  rcases List.mem_append.mp ht with h | h
  · exact Or.inl ((goodState_runFuel _ _ _ goodState_init).1 t h)
  · exact Or.inr (List.mem_singleton.mp h)

/-- C2: For every input string, the token sequence returned by `tokenize`
contains exactly one token of type EOF, and that token is the last
element of the sequence. -/
theorem tokenize_eof_once_and_last (html : String) :
    ((tokenize html).filter (fun t => t.type == TokenType.EOF)).length = 1 ∧
    (tokenize html).getLast? = some eofToken ∧
    eofToken.type = TokenType.EOF := by
  refine ⟨?_, ?_, rfl⟩
  · unfold tokenize
    rw [List.filter_append]
    have h1 : ((runFuel (2 * html.data.length + 1) html.data initTokState).tokens.filter
        (fun t => t.type == TokenType.EOF)) = [] := by
      rw [List.filter_eq_nil_iff]
      intro t ht
      rcases ((goodState_runFuel _ _ _ goodState_init).1 t ht).1 with h | h | h <;> simp [h]
    rw [h1]
    rfl
  · unfold tokenize
    simp

/-- C9: every token returned by `tokenize` has type START_TAG, END_TAG,
CHARACTER or EOF — DOCTYPE, COMMENT and PARSE_ERROR tokens are never
produced — and doctype or comment markup degrades into character
tokens. -/
theorem tokenize_types_restricted :
    (∀ html : String, (tokenize html).all allowedType = true) ∧
    ((tokenize "<!doctype html>").all
      (fun t => t.type == TokenType.CHARACTER || t.type == TokenType.EOF) = true) ∧
    ((tokenize "<!-- x -->").all
      (fun t => t.type == TokenType.CHARACTER || t.type == TokenType.EOF) = true) := by
  refine ⟨?_, by decide, by decide⟩
  intro html
  rw [List.all_eq_true]
  intro t ht
  rcases mem_tokenize_cases html t ht with h | h
  · rcases h.1 with h | h | h <;> simp [allowedType, h]
  · subst h; rfl

/-! ## Tree-builder lemmas -/

theorem length_updNode (nodes : List Node) (i : Nat) (f : Node → Node) :
    (updNode nodes i f).length = nodes.length := by
  unfold updNode
  split
  · exact List.length_set _ _ _
  · rfl

theorem getElem?_updNode_ne (nodes : List Node) {i j : Nat} (f : Node → Node) (h : i ≠ j) :
    (updNode nodes i f)[j]? = nodes[j]? := by
  unfold updNode
  split
  · exact List.getElem?_set_ne h
  · rfl

theorem getElem?_map_name_updNode (nodes : List Node) (i j : Nat) (f : Node → Node)
    (hf : ∀ n, (f n).name = n.name) :
    ((updNode nodes i f)[j]?).map Node.name = (nodes[j]?).map Node.name := by
  by_cases hij : i = j
  · subst hij
    unfold updNode
    rcases hn : nodes[i]? with _ | n
    · simp [hn]
    · have hlt : i < nodes.length := by
        by_contra hh
        rw [List.getElem?_eq_none (by omega)] at hn
        exact Option.noConfusion hn
      rw [List.getElem?_set_self hlt]
      simp [hf]
  · rw [getElem?_updNode_ne _ _ hij]

theorem length_addChild (nodes : List Node) (p c : Nat) :
    (addChild nodes p c).length = nodes.length := by
  unfold addChild
  rw [length_updNode, length_updNode]

theorem getElem?_map_name_addChild (nodes : List Node) (p c j : Nat) :
    ((addChild nodes p c)[j]?).map Node.name = (nodes[j]?).map Node.name := by
  have h1 := getElem?_map_name_updNode (updNode nodes c (fun ch => { ch with parent := some p }))
    p j (fun q => { q with children := q.children ++ [c] }) (fun n => rfl)
  have h2 := getElem?_map_name_updNode nodes c j
    (fun ch => { ch with parent := some p }) (fun n => rfl)
  exact h1.trans h2

theorem closeElement_nodes (st : PState) (nm : String) :
    (closeElement st nm).nodes = st.nodes := rfl

/-- Attaching a new node preserves the name of every node already in the
arena. -/
theorem attachNewNode_nodes_name (tok : Token) (st : PState) (j : Nat)
    (hj : j < st.nodes.length) :
    (((attachNewNode tok st).nodes)[j]?).map Node.name = (st.nodes[j]?).map Node.name := by
  cases hoe : st.openElements with
  | nil =>
    cases hsc : tok.selfClosing <;>
      simp only [attachNewNode, hoe, hsc, Bool.false_eq_true, if_false, if_true] <;>
      rw [List.getElem?_append_left hj]
  | cons top tail =>
    cases hsc : tok.selfClosing <;>
      simp only [attachNewNode, hoe, hsc, Bool.false_eq_true, if_false, if_true] <;>
      rw [getElem?_map_name_addChild, List.getElem?_append_left hj]

/-- Node names are preserved by every builder operation, so the root keeps
the sentinel name through the whole token loop. -/
theorem processToken_root_name (st : PState) (tok : Token)
    (h : (st.nodes[0]?).map Node.name = some "html") :
    (((processToken st tok).nodes)[0]?).map Node.name = some "html" := by
  have hlen : 0 < st.nodes.length := by
    cases hn : st.nodes with
    | nil => rw [hn] at h; simp at h
    | cons a l => simp [hn]
  cases htype : tok.type <;> simp only [processToken, htype]
  case START_TAG =>
    simp only [processStartTag]
    split
    · exact (attachNewNode_nodes_name tok (closeElement st "p") 0 hlen).trans h
    · exact (attachNewNode_nodes_name tok st 0 hlen).trans h
  case END_TAG =>
    unfold processEndTag
    split
    · split <;> exact h
    · exact h
  case CHARACTER =>
    rcases hoe : st.openElements with _ | ⟨top, tail⟩
    · simp only [processCharacter, hoe]
      exact h
    · rcases hd : tok.data with _ | d
      · simp only [processCharacter, hoe, hd]
        exact h
      · simp only [processCharacter, hoe, hd]
        split
        · exact (getElem?_map_name_updNode st.nodes top 0
            (fun n => { n with text := n.text ++ d }) (fun n => rfl)).trans h
        · exact h
  all_goals exact h

theorem processTokens_root_name :
    ∀ (toks : List Token) (st : PState),
      (st.nodes[0]?).map Node.name = some "html" →
      (((processTokens toks st).nodes)[0]?).map Node.name = some "html" := by
  intro toks
  induction toks with
  | nil => intro st h; exact h
  | cons tok rest ih =>
    intro st h
    unfold processTokens
    split
    · exact h
    · exact ih _ (processToken_root_name st tok h)

/-- C1: for every finite input string — including empty or arbitrarily
malformed input — `parse` returns a tree whose root node is the synthetic
root with the fixed sentinel name `html`.  (The embedding is a total
function mirroring every code path, so no input raises.) -/
theorem parse_root_named_html (html : String) : (parseTree html).name = "html" := by
  have h : (((parse html).nodes)[0]?).map Node.name = some "html" :=
    processTokens_root_name _ _ rfl
  unfold parseTree toTree
  rcases hh : (parse html).nodes with _ | ⟨n, rest⟩
  · rw [hh] at h; simp at h
  · rw [hh] at h
    simp only [List.getElem?_cons_zero, Option.map_some'] at h
    simp [toTreeFuel, Tree.name, Option.some.inj h]

/-! ## Open-element stack lemmas -/

theorem closeInStack_no_match (nodes : List Node) (nm : String) :
    ∀ l : List Nat, (∀ i ∈ l, nodeNameOf nodes i ≠ nm) → closeInStack nodes nm l = l := by
  intro l
  induction l with
  | nil => intro; rfl
  | cons i rest ih =>
    intro hl
    unfold closeInStack
    rw [if_neg, ih (fun j hj => hl j (List.mem_cons_of_mem i hj))]
    simp only [beq_iff_eq]
    exact hl i (List.mem_cons_self i rest)

theorem closeInStack_sublist (nodes : List Node) (nm : String) :
    ∀ l : List Nat, (closeInStack nodes nm l).Sublist l := by
  intro l
  induction l with
  | nil => exact List.Sublist.refl []
  | cons i rest ih =>
    unfold closeInStack
    split
    · exact List.sublist_cons_self i rest
    · exact ih.cons₂ i

/-- When some entry of the stack names `nm`, `closeInStack` removes
exactly the first such entry from the top: the entries above it (opened
later) are kept, so the innermost matching element is popped. -/
theorem closeInStack_split (nodes : List Node) (nm : String) :
    ∀ l : List Nat, (∃ i ∈ l, nodeNameOf nodes i = nm) →
      ∃ pre i post, l = pre ++ i :: post ∧ (∀ j ∈ pre, nodeNameOf nodes j ≠ nm) ∧
        nodeNameOf nodes i = nm ∧ closeInStack nodes nm l = pre ++ post := by
  intro l
  induction l with
  | nil => rintro ⟨i, hi, _⟩; exact absurd hi (List.not_mem_nil i)
  | cons a rest ih =>
    intro hl
    by_cases ha : nodeNameOf nodes a = nm
    · refine ⟨[], a, rest, rfl, by simp, ha, ?_⟩
      unfold closeInStack
      rw [if_pos (by simpa using ha)]
      rfl
    · have hrest : ∃ i ∈ rest, nodeNameOf nodes i = nm := by
        rcases hl with ⟨i, hi, hname⟩
        rcases List.mem_cons.mp hi with rfl | hi
        · exact absurd hname ha
        · exact ⟨i, hi, hname⟩
      obtain ⟨pre, i, post, heq, hpre, hname, hclose⟩ := ih hrest
      refine ⟨a :: pre, i, post, by rw [heq]; rfl, ?_, hname, ?_⟩
      · intro j hj
        rcases List.mem_cons.mp hj with rfl | hj
        · exact ha
        · exact hpre j hj
      · unfold closeInStack
        rw [if_neg (by simpa using ha), hclose]
        rfl

/-- C5: an end-tag token whose name matches no element on the
open-element stack is silently ignored — the builder state (open-element
stack and tree arena) is exactly the same before and after. -/
theorem end_tag_no_match_noop (tok : Token) (st : PState) (n : String)
    (h1 : tok.name = some n)
    (h2 : ∀ i ∈ st.openElements, nodeNameOf st.nodes i ≠ n) :
    processEndTag tok st = st := by
  unfold processEndTag
  rw [h1]
  show (if (n != "") = true then closeElement st n else st) = st
  by_cases hn : n = ""
  · rw [if_neg (by simp [hn])]
  · rw [if_pos (by simpa using hn)]
    unfold closeElement
    rw [closeInStack_no_match st.nodes n st.openElements h2]

theorem end_tag_no_match_noop_witness :
    processEndTag strayEndTag initPState = initPState :=
  end_tag_no_match_noop strayEndTag initPState "q" rfl (by decide)

/-- C3: a start tag from the fixed block set arriving while a `p` element
is open anywhere on the stack first pops the innermost open `p` and then
attaches the new node; in particular for
`parse("<p>Text<div>Block</div>")` the `div` node is a sibling of the `p`
node under the root, not a descendant of `p`. -/
theorem block_start_tag_closes_p :
    (∀ (tok : Token) (st : PState) (n : String),
      tok.name = some n → n ∈ SPECIAL_END_TAGS → isOpen st "p" = true →
      processStartTag tok st = attachNewNode tok (closeElement st "p")) ∧
    (∀ (nodes : List Node) (l : List Nat), (∃ i ∈ l, nodeNameOf nodes i = "p") →
      ∃ pre i post, l = pre ++ i :: post ∧ (∀ j ∈ pre, nodeNameOf nodes j ≠ "p") ∧
        nodeNameOf nodes i = "p" ∧ closeInStack nodes "p" l = pre ++ post) ∧
    parseTree "<p>Text<div>Block</div>" =
      Tree.node "html" [] [Tree.node "p" [] [] "Text", Tree.node "div" [] [] "Block"] "" := by
  refine ⟨?_, fun nodes l => closeInStack_split nodes "p" l, by rfl⟩
  intro tok st n h1 h2 h3
  unfold processStartTag
  rw [h1]
  simp [h2, h3]

theorem block_start_tag_closes_p_witness :
    processStartTag divStartTag pOpenState = attachNewNode divStartTag (closeElement pOpenState "p") :=
  block_start_tag_closes_p.1 divStartTag pOpenState "div" rfl (by decide) (by decide)

/-! ## Self-closing tokens and the frame property of the builder -/

theorem getElem?_addChild_ne (nodes : List Node) {p c j : Nat} (hp : p ≠ j) (hc : c ≠ j) :
    (addChild nodes p c)[j]? = nodes[j]? := by
  rw [show addChild nodes p c = updNode (updNode nodes c (fun ch => { ch with parent := some p }))
        p (fun q => { q with children := q.children ++ [c] }) from rfl,
      getElem?_updNode_ne _ _ hp, getElem?_updNode_ne _ _ hc]

/-- A self-closing token is attached but never pushed: the stack is
untouched by `attachNewNode`. -/
theorem attachNewNode_openElements_selfClosing (tok : Token) (st : PState)
    (h : tok.selfClosing = true) :
    (attachNewNode tok st).openElements = st.openElements := by
  cases hoe : st.openElements <;> simp [attachNewNode, hoe, h]

/-- Attaching a new node neither disturbs arena entries off the stack nor
puts an off-stack index onto the stack; the arena only grows. -/
theorem attachNewNode_frame (tok : Token) (st : PState) (i : Nat)
    (hlt : i < st.nodes.length) (hni : i ∉ st.openElements) :
    (attachNewNode tok st).nodes[i]? = st.nodes[i]? ∧
    i ∉ (attachNewNode tok st).openElements ∧
    st.nodes.length ≤ (attachNewNode tok st).nodes.length := by
  have hne_new : i ≠ st.nodes.length := by omega
  cases hoe : st.openElements with
  | nil =>
    cases hsc : tok.selfClosing <;>
      simp only [attachNewNode, hoe, hsc, Bool.false_eq_true, if_false, if_true] <;>
      refine ⟨List.getElem?_append_left hlt, ?_, by simp⟩
    · simp [hne_new]
    · simp
  | cons top tail =>
    have htop : top ∈ st.openElements := by rw [hoe]; exact List.mem_cons_self top tail
    have htop_ne : top ≠ i := fun he => hni (he ▸ htop)
    have hnew_ne : st.nodes.length ≠ i := fun he => hne_new he.symm
    have hnodes : (addChild (st.nodes ++ [Node.mk (tok.name.getD "") tok.attributes [] "" none])
        top st.nodes.length)[i]? = st.nodes[i]? := by
      rw [getElem?_addChild_ne _ htop_ne hnew_ne, List.getElem?_append_left hlt]
    have hmem : i ∉ top :: tail := by rw [hoe] at hni; exact hni
    cases hsc : tok.selfClosing <;>
      simp only [attachNewNode, hoe, hsc, Bool.false_eq_true, if_false, if_true] <;>
      refine ⟨hnodes, ?_, by rw [length_addChild]; simp⟩
    · intro hm
      rcases List.mem_cons.mp hm with h | h
      · exact hne_new h
      · exact hmem h
    · exact hmem

/-- C8: void-element start tags are always emitted self-closing, a
self-closing token is never pushed onto the open-element stack, and a
node that is off the stack is never modified again and never returns to
the stack — so a self-closing node never acquires children through the
stack mechanism. -/
theorem void_selfClosing_never_pushed :
    (∀ html : String, (tokenize html).all voidSelfClosed = true) ∧
    (∀ (tok : Token) (st : PState), tok.selfClosing = true →
      (∀ i ∈ (processStartTag tok st).openElements, i ∈ st.openElements) ∧
      ((∀ i ∈ st.openElements, i < st.nodes.length) →
        st.nodes.length ∉ (processStartTag tok st).openElements)) ∧
    (∀ (tok : Token) (st : PState) (i : Nat), i < st.nodes.length → i ∉ st.openElements →
      (processToken st tok).nodes[i]? = st.nodes[i]? ∧
      i ∉ (processToken st tok).openElements ∧
      st.nodes.length ≤ (processToken st tok).nodes.length) := by
  refine ⟨?_, ?_, ?_⟩
  · intro html
    rw [List.all_eq_true]
    intro t ht
    rcases mem_tokenize_cases html t ht with h | h
    · unfold voidSelfClosed
      rcases hv : voidName t with _ | _
      · simp
      · have : t.selfClosing = true := by
          unfold voidName at hv
          rcases hn : t.name with _ | n
          · rw [hn] at hv; exact absurd hv (by simp)
          · rw [hn] at hv
            exact h.2 n hn (of_decide_eq_true hv)
        simp [this]
    · subst h; rfl
  · intro tok st hsc
    have hstack : ∀ i ∈ (processStartTag tok st).openElements, i ∈ st.openElements := by
      intro i hi
      simp only [processStartTag] at hi
      split at hi
      · rw [attachNewNode_openElements_selfClosing _ _ hsc] at hi
        exact (closeInStack_sublist _ _ _).subset hi
      · rw [attachNewNode_openElements_selfClosing _ _ hsc] at hi
        exact hi
    refine ⟨hstack, ?_⟩
    intro hbound hmem
    exact absurd (hbound _ (hstack _ hmem)) (by omega)
  · intro tok st i hlt hni
    obtain ⟨ttype, tname, tattrs, tsc, tdata, tfq⟩ := tok
    obtain ⟨nodes, oe⟩ := st
    cases ttype
    case START_TAG =>
      simp only [processToken, processStartTag]
      split
      · have hsub : i ∉ (closeElement ⟨nodes, oe⟩ "p").openElements :=
          fun hm => hni ((closeInStack_sublist _ _ _).subset hm)
        exact attachNewNode_frame _ (closeElement ⟨nodes, oe⟩ "p") i hlt hsub
      · exact attachNewNode_frame _ ⟨nodes, oe⟩ i hlt hni
    case END_TAG =>
      cases tname with
      | none => exact ⟨rfl, hni, le_refl _⟩
      | some n =>
        simp only [processToken]
        have hnodes : (processEndTag (Token.mk .END_TAG (some n) tattrs tsc tdata tfq)
            ⟨nodes, oe⟩).nodes = nodes := by
          simp only [processEndTag]
          split <;> rfl
        have hmem : ∀ j, j ∈ (processEndTag (Token.mk .END_TAG (some n) tattrs tsc tdata tfq)
            ⟨nodes, oe⟩).openElements → j ∈ oe := by
          simp only [processEndTag]
          split
          · exact fun j hj => (closeInStack_sublist _ _ _).subset hj
          · exact fun j hj => hj
        exact ⟨by rw [hnodes], fun hm => hni (hmem i hm), le_of_eq (by rw [hnodes])⟩
    case CHARACTER =>
      cases oe with
      | nil => exact ⟨rfl, hni, le_refl _⟩
      | cons top tail =>
        cases tdata with
        | none => exact ⟨rfl, hni, le_refl _⟩
        | some d =>
          have htop_ne : top ≠ i := fun he => hni (he ▸ List.mem_cons_self top tail)
          simp only [processToken, processCharacter]
          by_cases hd : (d != "") = true
          · rw [if_pos hd]
            exact ⟨getElem?_updNode_ne _ _ htop_ne, hni,
              le_of_eq (length_updNode nodes top _).symm⟩
          · rw [if_neg hd]
            exact ⟨rfl, hni, le_refl _⟩
    all_goals exact ⟨rfl, hni, le_refl _⟩

theorem void_selfClosing_never_pushed_witness :
    pOpenState.nodes.length ∉ (processStartTag brStartTag pOpenState).openElements :=
  (void_selfClosing_never_pushed.2.1 brStartTag pOpenState rfl).2 (by decide)

/-! ## Auditor lemmas -/

mutual

/-- The auditor emits exactly one message per forbidden direct
parent/child pair. -/
theorem checkNode_length : ∀ t : Tree, (checkNode t).length = specPairCount t
  | .node name attrs children text => by
      rw [checkNode, specPairCount, List.length_append, List.length_map, List.filter_map,
          List.length_map, checkNodeList_length children]
      rfl

theorem checkNodeList_length : ∀ l : List Tree, (checkNodeList l).length = specPairCountList l
  | [] => rfl
  | t :: ts => by
      rw [checkNodeList, specPairCountList, List.length_append, checkNode_length t,
          checkNodeList_length ts]

end

/-- C4: for every tree, `audit` scores `max 0 (100 − 10 × v)` where `v`
counts the forbidden direct parent/child pairs (one message each, direct
adjacency only), the score is never negative, status is PASS exactly when
the score is 100, and one `div` directly under a `p` yields FAIL with
score 90 and a single violation. -/
theorem audit_score_status_correct :
    (∀ t : Tree, (audit t).score = max 0 (100 - 10 * (specPairCount t : Int))) ∧
    (∀ t : Tree, (audit t).violations.length = specPairCount t) ∧
    (∀ t : Tree, 0 ≤ (audit t).score) ∧
    (∀ t : Tree, ((audit t).status = "PASS" ↔ (audit t).score = 100)) ∧
    audit pDivTree =
      { score := 90, violations := ["Invalid nesting: <div> inside <p>"], status := "FAIL" } := by
  refine ⟨?_, ?_, ?_, ?_, by decide⟩
  · intro t
    simp only [audit, checkNode_length]
    omega
  · intro t
    simp only [audit]
    exact checkNode_length t
  · intro t
    simp only [audit]
    exact le_max_left 0 _
  · intro t
    simp only [audit]
    split
    · next hc =>
      have h100 : max 0 (100 - ((checkNode t).length * 10 : Int)) = 100 := by
        simpa using hc
      simp [h100]
    · next hc =>
      have hne : ¬ max 0 (100 - ((checkNode t).length * 10 : Int)) = 100 := by
        simpa using hc
      constructor
      · intro hP
        exact absurd hP (by decide)
      · intro h100
        exact absurd h100 hne

theorem audit_score_status_correct_witness :
    (audit pDivTree).score = max 0 (100 - 10 * (specPairCount pDivTree : Int)) :=
  audit_score_status_correct.1 pDivTree

/-! ## Integrity-verifier lemmas -/

/-- C6: `verify` reports the computed node count and depth, emits one
issue message per violated limit, and is valid exactly when neither
caller-supplied limit is exceeded; three nested `div` elements with
`max_depth = 2` fail with a depth message. -/
theorem verify_limits_correct :
    (∀ (maxD maxN : Nat) (t : Tree),
      ((verify maxD maxN t).valid = true ↔ (countNodes t ≤ maxN ∧ getDepth t ≤ maxD)) ∧
      (verify maxD maxN t).node_count = countNodes t ∧
      (verify maxD maxN t).max_depth = getDepth t ∧
      (verify maxD maxN t).issues.length =
        ((if maxN < countNodes t then 1 else 0) + (if maxD < getDepth t then 1 else 0))) ∧
    ((verify 2 1000 threeDivTree).valid = false ∧
      (verify 2 1000 threeDivTree).issues = ["DOM depth (3) exceeds limit (2)"]) := by
  refine ⟨?_, by decide, by decide⟩
  intro maxD maxN t
  simp only [verify]
  refine ⟨?_, by simp, by simp, ?_⟩
  · by_cases h1 : countNodes t > maxN <;> by_cases h2 : getDepth t > maxD <;>
      (simp [h1, h2]; try omega)
  · by_cases h1 : countNodes t > maxN <;> by_cases h2 : getDepth t > maxD <;>
      simp [h1, h2]

theorem verify_limits_correct_witness :
    (verify 5 1000 threeDivTree).valid = true :=
  ((verify_limits_correct.1 5 1000 threeDivTree).1).mpr (by decide)

/-! ## Differential-oracle lemmas -/

mutual

/-- The extracted name sequence ignores attributes and text entirely. -/
theorem getStructureOur_stripMeta :
    ∀ t : Tree, getStructureOur (stripMeta t) = getStructureOur t
  | .node name attrs children text => by
      rw [stripMeta, getStructureOur, getStructureOur,
          getStructureOurList_stripMetaList children]

theorem getStructureOurList_stripMetaList :
    ∀ l : List Tree, getStructureOurList (stripMetaList l) = getStructureOurList l
  | [] => rfl
  | t :: ts => by
      rw [stripMetaList, getStructureOurList, getStructureOurList,
          getStructureOur_stripMeta t, getStructureOurList_stripMetaList ts]

end

/-- C7: `compare` reports the two extracted tag counts and matches exactly
when the reference name sequence equals the pre-order extraction of the
core tree (root and body-wrapper names excluded); attributes and text
content play no role. -/
theorem compare_matches_iff :
    (∀ (ref : List String) (t : Tree),
      ((compare ref t).«matches» = true ↔ ref = getStructureOur t)) ∧
    (∀ (ref : List String) (t : Tree), compare ref (stripMeta t) = compare ref t) ∧
    (∀ (ref : List String) (t : Tree),
      (compare ref t).ref_tags = ref.length ∧
      (compare ref t).our_tags = (getStructureOur t).length) := by
  refine ⟨?_, ?_, ?_⟩
  · intro ref t
    simp only [compare]
    exact beq_iff_eq
  · intro ref t
    unfold compare
    rw [getStructureOur_stripMeta]
  · intro ref t
    exact ⟨rfl, rfl⟩

theorem compare_matches_iff_witness :
    (compare ["p", "div"] (parseTree "<p>Text<div>Block</div>")).«matches» = true :=
  (compare_matches_iff.1 ["p", "div"] (parseTree "<p>Text<div>Block</div>")).mpr (by rfl)

/-! ## End-of-input handling -/

/-- C10: input ending inside a tag abandons the partially built token:
the output is exactly the completed tokens followed by the single EOF
token, and the pending tag name and attribute contribute nothing; with
the closing `>` present the same tag is emitted. -/
theorem pending_tag_discarded :
    tokenize "<div foo" = [eofToken] ∧
    tokenize "<div a=\"x" = [eofToken] ∧
    tokenize "<div foo>" =
      [{ type := .START_TAG, name := some "div", attributes := [("foo", "")] }, eofToken] ∧
    (∀ html : String, tokenize html =
      (runFuel (2 * html.data.length + 1) html.data initTokState).tokens ++ [eofToken]) :=
  ⟨by decide, by decide, by decide, fun html => rfl⟩

end HtmlCore
